import Mathlib

/-!
A shallow embedding of the pattern-compiler core of the repository
(`lib/pattern-compiler/{types,sources,combinators,compile,loaders}`).

JavaScript numbers are modelled as rationals (`ℚ`); machine 32-bit
integer operations of the mulberry32 generator are modelled on `ℕ`
with explicit `% 2^32`.  `Math.sin`, a floating-point function with no
exact rational counterpart, is abstracted as an explicit parameter
`sinF : ℤ → ℚ` (its argument in the source is always the integer
`Math.floor(whole.start * 1000000) + seed`); every theorem touching
`degradeBy` is proved for all `sinF`.
-/

namespace PC

/-- Models `TimeSpan` from `types.ts`: a half-open interval in cycle
coordinates.  The source field `end` is a Lean keyword and is rendered
here as `stop`. -/
structure TimeSpan where
  start : ℚ
  stop : ℚ
deriving DecidableEq

/-- Models `Event<T>` from `types.ts`: a value with its natural extent
`whole` and the query-clipped portion `part`. -/
structure Event (α : Type) where
  value : α
  whole : TimeSpan
  part : TimeSpan
deriving DecidableEq

/-- Models `Pattern<T>` from `types.ts`: a function from a query span to
the events occurring in it. -/
def Pattern (α : Type) : Type := TimeSpan → List (Event α)

/-- Models `spansOverlap` from `sources.ts`. -/
def spansOverlap (a b : TimeSpan) : Bool :=
  decide (a.start < b.stop) && decide (b.start < a.stop)

/-- Models `spanIntersection` from `sources.ts`. -/
def spanIntersection (a b : TimeSpan) : Option TimeSpan :=
  if spansOverlap a b then some ⟨max a.start b.start, min a.stop b.stop⟩ else none

/-- Models `spanDuration` from `sources.ts`. -/
def spanDuration (s : TimeSpan) : ℚ := s.stop - s.start

/-- The integer loop `for (let i = a; i < b; i++)` used throughout the
source is modelled as the list of integers of `[a, b)`. -/
def intRange (a b : ℤ) : List ℤ :=
  (List.range (b - a).toNat).map fun k => a + (k : ℤ)

/-- One output of the mulberry32 generator of `seededRandom` in
`sources.ts`, as a natural number below `2^32`.  `state` is the value
of the mutable `seed` variable after the in-place `seed += 0x6d2b79f5`;
JavaScript's `ToInt32`/`ToUint32` coercions on the bitwise operators
are the explicit `% 4294967296`. -/
def mulberryVal (state : ℤ) : ℕ :=
  let t0 : ℕ := (state % (4294967296 : ℤ)).toNat
  let t1 : ℕ := ((t0 ^^^ (t0 >>> 15)) * (t0 ||| 1)) % 4294967296
  let t2 : ℕ := t1 ^^^ ((t1 + ((t1 ^^^ (t1 >>> 7)) * (t1 ||| 61)) % 4294967296) % 4294967296)
  t2 ^^^ (t2 >>> 14)

/-- The `k`-th (0-indexed) call of the generator returned by
`seededRandom(seed)`: the `k+1`-st increment of the seed by
`0x6d2b79f5`. -/
def mulberry (seed : ℤ) (k : ℕ) : ℕ :=
  mulberryVal (seed + ((k : ℤ) + 1) * 0x6d2b79f5)

/-- Swap two positions of a list (the array swap inside the
Fisher-Yates loop of `shuffleWithSeed`); out-of-range indices leave the
list unchanged (never hit on the call paths below). -/
def swapL {α : Type} (l : List α) (i j : ℕ) : List α :=
  match l.get? i, l.get? j with
  | some x, some y => (l.set i y).set j x
  | _, _ => l

/-- The Fisher-Yates loop of `shuffleWithSeed` in `sources.ts`,
counting `i` down from `length - 1` to `1`; `k` counts the calls of
`rand()`, and `j = Math.floor(rand() * (i + 1))` is exact because the
float product has at most 53 significant bits. -/
def fisherAux {α : Type} (seed : ℤ) : List α → ℕ → ℕ → List α
  | l, 0, _ => l
  | l, i + 1, k =>
      let j := (mulberry seed k * (i + 2)) / 4294967296
      fisherAux seed (swapL l (i + 1) j) i (k + 1)

/-- Models `shuffleWithSeed` from `sources.ts`. -/
def shuffleWithSeed {α : Type} (l : List α) (seed : ℤ) : List α :=
  fisherAux seed l (l.length - 1) 0

/-- Models the `order` field of `SourceOptions` from `types.ts`. -/
inductive Order where
  | shuffle
  | sequential
  | random
deriving DecidableEq

/-- Models `silence` from `sources.ts`. -/
def silence {α : Type} : Pattern α := fun _ => []

/-- Models `pure` from `sources.ts`: one event per whole cycle covered
by the query. -/
def pure {α : Type} (value : α) : Pattern α := fun querySpan =>
  (intRange ⌊querySpan.start⌋ ⌈querySpan.stop⌉).filterMap fun cycle =>
    let whole : TimeSpan := ⟨(cycle : ℚ), (cycle : ℚ) + 1⟩
    (spanIntersection whole querySpan).map fun part => ⟨value, whole, part⟩

/-- Models `seq` from `sources.ts`: `n` equal slots per cycle. -/
def seq {α : Type} (values : List α) : Pattern α :=
  match values with
  | [] => fun _ => []
  | v0 :: _ =>
    let n := values.length
    let duration : ℚ := 1 / n
    fun querySpan =>
      (intRange ⌊querySpan.start⌋ ⌈querySpan.stop⌉).flatMap fun (cycle : ℤ) =>
        (List.range n).filterMap fun (i : ℕ) =>
          let whole : TimeSpan :=
            ⟨(cycle : ℚ) + (i : ℚ) * duration, (cycle : ℚ) + ((i : ℚ) + 1) * duration⟩
          (spanIntersection whole querySpan).map fun part =>
            ⟨values.getD i v0, whole, part⟩

/-- Models `fromPool` from `sources.ts`: global slots of width
`1/|pool|`, with shuffle / sequential / random ordering.  List indexing
`pool[...]` is total in the source on these paths; `getD` with the head
as default mirrors it. -/
def fromPool {α : Type} (pool : List α) (order : Order) (seed : ℤ) : Pattern α :=
  match pool with
  | [] => fun _ => []
  | p0 :: _ =>
    let orderedPool := if order = Order.shuffle then shuffleWithSeed pool seed else pool
    fun querySpan =>
      let itemDuration : ℚ := 1 / pool.length
      (intRange ⌊querySpan.start / itemDuration⌋ ⌈querySpan.stop / itemDuration⌉).filterMap
        fun (globalIndex : ℤ) =>
          let whole : TimeSpan :=
            ⟨(globalIndex : ℚ) * itemDuration, ((globalIndex : ℚ) + 1) * itemDuration⟩
          (spanIntersection whole querySpan).map fun part =>
            let value :=
              if order = Order.random then
                pool.getD ((mulberry (seed + globalIndex) 0 * pool.length) / 4294967296) p0
              else
                orderedPool.getD (globalIndex % (orderedPool.length : ℤ)).toNat p0
            ⟨value, whole, part⟩

/-- Models `fast` from `combinators.ts`: query at `factor ×` the span,
divide result coordinates by `factor`; non-positive factor is silence
and factor 1 is the identity. -/
def fast {α : Type} (factor : ℚ) (pat : Pattern α) : Pattern α :=
  if factor ≤ 0 then fun _ => []
  else if factor = 1 then pat
  else fun querySpan =>
    (pat ⟨querySpan.start * factor, querySpan.stop * factor⟩).map fun event =>
      ⟨event.value,
        ⟨event.whole.start / factor, event.whole.stop / factor⟩,
        ⟨event.part.start / factor, event.part.stop / factor⟩⟩

/-- Models `slow` from `combinators.ts`. -/
def slow {α : Type} (factor : ℚ) (pat : Pattern α) : Pattern α :=
  fast (1 / factor) pat

/-- Models `early` from `combinators.ts`. -/
def early {α : Type} (amount : ℚ) (pat : Pattern α) : Pattern α := fun querySpan =>
  (pat ⟨querySpan.start + amount, querySpan.stop + amount⟩).map fun event =>
    ⟨event.value,
      ⟨event.whole.start - amount, event.whole.stop - amount⟩,
      ⟨event.part.start - amount, event.part.stop - amount⟩⟩

/-- Models `late` from `combinators.ts`. -/
def late {α : Type} (amount : ℚ) (pat : Pattern α) : Pattern α :=
  early (-amount) pat

/-- Models `stack` from `combinators.ts`: all patterns queried over the
same span, events concatenated. -/
def stack {α : Type} (patterns : List (Pattern α)) : Pattern α :=
  match patterns with
  | [] => fun _ => []
  | [p] => p
  | _ => fun querySpan => patterns.flatMap fun pat => pat querySpan

/-- Models `cat` from `combinators.ts`: enumerate the meta-cycles
covered by the query; pattern `i` of meta-cycle `meta` owns global
cycle `meta * n + i`, queried in local `[0,1)` coordinates and
translated back. -/
def cat {α : Type} (patterns : List (Pattern α)) : Pattern α :=
  match patterns with
  | [] => fun _ => []
  | [p] => p
  | _ =>
    let n := patterns.length
    fun querySpan =>
      (intRange ⌊querySpan.start / (n : ℚ)⌋ ⌈querySpan.stop / (n : ℚ)⌉).flatMap
        fun (meta : ℤ) =>
          (List.range n).flatMap fun (i : ℕ) =>
            let patternCycleStart : ℤ := meta * n + i
            let cycleSpan : TimeSpan :=
              ⟨(patternCycleStart : ℚ), (patternCycleStart : ℚ) + 1⟩
            if spansOverlap cycleSpan querySpan then
              let localQueryStart := max 0 (querySpan.start - (patternCycleStart : ℚ))
              let localQueryEnd := min 1 (querySpan.stop - (patternCycleStart : ℚ))
              ((patterns.getD i silence) ⟨localQueryStart, localQueryEnd⟩).map fun event =>
                ⟨event.value,
                  ⟨event.whole.start + (patternCycleStart : ℚ),
                    event.whole.stop + (patternCycleStart : ℚ)⟩,
                  ⟨event.part.start + (patternCycleStart : ℚ),
                    event.part.stop + (patternCycleStart : ℚ)⟩⟩
            else []

/-- Models `weave` from `combinators.ts`: query every pattern over the
whole span, then re-lay the events into `maxEvents * n` equal slots of
the single cycle starting at `⌊querySpan.start⌋`, in round-robin
order, discarding the original timing (`part` is set equal to
`whole`). -/
def weave {α : Type} (count : ℚ) (patterns : List (Pattern α)) : Pattern α :=
  match patterns with
  | [] => fun _ => []
  | [p] => p
  | _ =>
    if count ≤ 0 then fun _ => []
    else
      let n := patterns.length
      fun querySpan =>
        let patternEvents := patterns.map fun pat => pat querySpan
        let maxEvents := (patternEvents.map List.length).foldr max 0
        if maxEvents = 0 then []
        else
          let totalSlots := maxEvents * n
          let slotDuration : ℚ := 1 / totalSlots
          let cycleStart : ℤ := ⌊querySpan.start⌋
          (List.range maxEvents).flatMap fun (round : ℕ) =>
            (List.range n).filterMap fun (patIndex : ℕ) =>
              ((patternEvents.getD patIndex []).get? round).map fun originalEvent =>
                let slot := round * n + patIndex
                let newStart : ℚ := (cycleStart : ℚ) + (slot : ℚ) * slotDuration
                let newEnd : ℚ := (cycleStart : ℚ) + ((slot : ℚ) + 1) * slotDuration
                ⟨originalEvent.value, ⟨newStart, newEnd⟩, ⟨newStart, newEnd⟩⟩

/-- Models `alternate` from `combinators.ts`: block `pos` of
`cyclesEach` cycles is owned by pattern `pos % n`, internally slowed by
`cyclesEach`. -/
def alternate {α : Type} (cyclesEach : ℚ) (patterns : List (Pattern α)) : Pattern α :=
  match patterns with
  | [] => fun _ => []
  | [p] => p
  | _ =>
    let n := patterns.length
    fun querySpan =>
      (intRange ⌊querySpan.start / cyclesEach⌋ ⌈querySpan.stop / cyclesEach⌉).flatMap
        fun (pos : ℤ) =>
          let patIndex := (pos % (n : ℤ)).toNat
          let cycleStart : ℚ := (pos : ℚ) * cyclesEach
          let cycleEnd : ℚ := cycleStart + cyclesEach
          let overlapStart := max querySpan.start cycleStart
          let overlapEnd := min querySpan.stop cycleEnd
          if overlapStart < overlapEnd then
            let localStart := overlapStart - cycleStart
            let localEnd := overlapEnd - cycleStart
            (slow cyclesEach (patterns.getD patIndex silence) ⟨localStart, localEnd⟩).map
              fun event =>
                ⟨event.value,
                  ⟨event.whole.start + cycleStart, event.whole.stop + cycleStart⟩,
                  ⟨event.part.start + cycleStart, event.part.stop + cycleStart⟩⟩
          else []

/-- Models `fmap` from `combinators.ts`. -/
def fmap {α β : Type} (fn : α → β) (pat : Pattern α) : Pattern β := fun querySpan =>
  (pat querySpan).map fun event => ⟨fn event.value, event.whole, event.part⟩

/-- Models `filter` from `combinators.ts`. -/
def filter {α : Type} (pred : α → Bool) (pat : Pattern α) : Pattern α := fun querySpan =>
  (pat querySpan).filter fun event => pred event.value

/-- The keep/drop decision of `degradeBy` in `combinators.ts`: a pure
function of the event's natural start time and the seed.  `sinF`
abstracts `Math.sin`. -/
def degradeKeep (sinF : ℤ → ℚ) (prob : ℚ) (seed : ℤ) (wholeStart : ℚ) : Bool :=
  let eventSeed : ℤ := ⌊wholeStart * 1000000⌋ + seed
  let s : ℚ := sinF eventSeed
  let rand : ℚ := s * 10000 - (⌊s * 10000⌋ : ℚ)
  decide (prob ≤ rand)

/-- Models `degradeBy` from `combinators.ts`: `prob ≤ 0` is the
identity, `prob ≥ 1` is silence, otherwise each event is kept iff
`degradeKeep` of its `whole.start` holds. -/
def degradeBy {α : Type} (sinF : ℤ → ℚ) (prob : ℚ) (pat : Pattern α) (seed : ℤ) :
    Pattern α :=
  if prob ≤ 0 then pat
  else if 1 ≤ prob then fun _ => []
  else fun querySpan =>
    (pat querySpan).filter fun event => degradeKeep sinF prob seed event.whole.start

/-- Models `every` from `combinators.ts`: cycle `c` plays through
`transform pat` iff `c % n = 0`, stitched cycle by cycle; `n ≤ 0`
returns the pattern unchanged. -/
def every {α : Type} (n : ℤ) (transform : Pattern α → Pattern α) (pat : Pattern α) :
    Pattern α :=
  if n ≤ 0 then pat
  else fun querySpan =>
    (intRange ⌊querySpan.start⌋ ⌈querySpan.stop⌉).flatMap fun (cycle : ℤ) =>
      let cycleSpan : TimeSpan := ⟨(cycle : ℚ), (cycle : ℚ) + 1⟩
      match spanIntersection cycleSpan querySpan with
      | none => []
      | some queryPart =>
        let patternToUse := if cycle % n = 0 then transform pat else pat
        (patternToUse ⟨queryPart.start - (cycle : ℚ), queryPart.stop - (cycle : ℚ)⟩).map
          fun event =>
            ⟨event.value,
              ⟨event.whole.start + (cycle : ℚ), event.whole.stop + (cycle : ℚ)⟩,
              ⟨event.part.start + (cycle : ℚ), event.part.stop + (cycle : ℚ)⟩⟩

/-- Models `Difficulty` from `types.ts`: the five ordered levels. -/
inductive Difficulty where
  | BASIC
  | LIGHT
  | MEDIUM
  | DEEP
  | EXTREME
deriving DecidableEq, BEq

/-- Models `DIFFICULTY_ORDER` from `types.ts`. -/
def DIFFICULTY_ORDER : List Difficulty :=
  [.BASIC, .LIGHT, .MEDIUM, .DEEP, .EXTREME]

/-- The position of a difficulty in `DIFFICULTY_ORDER`
(`DIFFICULTY_ORDER.indexOf`, used by the loaders' filters). -/
def difficultyIndex (d : Difficulty) : ℕ :=
  DIFFICULTY_ORDER.indexOf d

/-- Models JavaScript `String.prototype.toUpperCase` as the
character-wise ASCII uppercase map (the difficulty vocabulary is all
ASCII, where the two functions agree). -/
def jsToUpper (s : String) : String := ⟨s.data.map Char.toUpper⟩

/-- Models `mapDifficulty` from `loaders.ts`: uppercase the raw string,
look it up in `DIFFICULTY_MAP` (with the `MODERATE → MEDIUM` alias),
default `BASIC`. -/
def mapDifficulty (raw : String) : Difficulty :=
  match jsToUpper raw with
  | "BASIC" => .BASIC
  | "LIGHT" => .LIGHT
  | "MEDIUM" => .MEDIUM
  | "MODERATE" => .MEDIUM
  | "DEEP" => .DEEP
  | "EXTREME" => .EXTREME
  | _ => .BASIC

/-- Models `RawMantraEntry` from `loaders.ts` as it exists at runtime:
the JSON may omit any field, and a record with no `difficulty` key
reaches the loader as `undefined` (`none` here) despite the TypeScript
annotation `difficulty: string`. -/
structure RawMantraEntry where
  type : Option String := none
  line : String
  theme : String
  dominant : Option String := none
  subject : Option String := none
  difficulty : Option String := none
deriving DecidableEq

/-- Models the untyped runtime application of `mapDifficulty` to a raw
record's difficulty field: on a missing field (`undefined`),
`raw.toUpperCase()` throws a TypeError before any table lookup
(`Except.error ()`); on a present string it proceeds as
`mapDifficulty`. -/
def mapDifficultyDyn : Option String → Except Unit Difficulty
  | none => .error ()
  | some s => .ok (mapDifficulty s)

/-- Models `Mantra` from `types.ts`. -/
structure Mantra where
  line : String
  theme : String
  difficulty : Difficulty
  dominant : Option String := none
  subject : Option String := none
deriving DecidableEq

/-- One step of the normalization map in `loadMantrasForTheme`
(`loaders.ts`): build the `Mantra` from a raw entry, propagating the
TypeError that `mapDifficulty` raises on a missing difficulty. -/
def normalizeEntry (e : RawMantraEntry) : Except Unit Mantra :=
  match mapDifficultyDyn e.difficulty with
  | .error _ => .error ()
  | .ok d => .ok ⟨e.line, e.theme, d, e.dominant, e.subject⟩

/-- Models the `raw.map(...)` inside the try/catch of
`loadMantrasForTheme`: the first thrown TypeError aborts the map and
the catch returns `[]`, discarding the whole theme's records. -/
def loadEntries (entries : List RawMantraEntry) : List Mantra :=
  match entries.mapM normalizeEntry with
  | .ok ms => ms
  | .error _ => []

/-- The value shapes distinguished by `extractEventData` in
`compile.ts`, as the closed tagged variant its ordered chain of shape
predicates induces: a string, a Mantra-shaped object, another object
with a string `text` field, another object with a string `line` field,
or anything else carried as its stringification. -/
inductive CValue where
  | str (s : String)
  | mantra (m : Mantra)
  | objText (text : String)
  | objLine (line : String)
  | other (stringified : String)
deriving DecidableEq

/-- Models the `metadata` field of `TimelineEvent` from `types.ts`. -/
structure EventMeta where
  theme : Option String := none
  difficulty : Option Difficulty := none
  source : Option String := none
deriving DecidableEq

/-- Models `TimelineEventType` from `types.ts`. -/
inductive TimelineEventType where
  | mantra
  | blockLine
  | silence
deriving DecidableEq

/-- Models `TimelineEvent` from `types.ts`. -/
structure TimelineEvent where
  type : TimelineEventType
  text : String
  startMs : ℚ
  durationMs : ℚ
  metadata : Option EventMeta := none
deriving DecidableEq

/-- Models `Timeline` from `types.ts` (the nested `metadata` record is
flattened into the last three fields). -/
structure Timeline where
  events : List TimelineEvent
  totalDurationMs : ℚ
  themes : List String
  cycleCount : ℚ
  cycleDurationMs : ℚ
deriving DecidableEq

/-- Models `extractEventData` from `compile.ts`. -/
def extractEventData : CValue → String × Option EventMeta
  | .str s => (s, none)
  | .mantra m => (m.line, some ⟨some m.theme, some m.difficulty, none⟩)
  | .objText t => (t, none)
  | .objLine l => (l, none)
  | .other s => (s, none)

/-- JS `Set` insertion while collecting themes: first occurrence kept,
later duplicates ignored. -/
def addTheme (acc : List String) (t : String) : List String :=
  if t ∈ acc then acc else acc ++ [t]

/-- The distinct themes of a list of timeline events, in first-seen
order, as collected by the `themes` set in `compile`. -/
def collectThemes (evs : List TimelineEvent) : List String :=
  evs.foldl
    (fun acc ev =>
      match ev.metadata with
      | some m => match m.theme with
        | some t => addTheme acc t
        | none => acc
      | none => acc)
    []

/-- The per-event conversion of `compile`: whole-span coordinates to
milliseconds, duration capped at `eventDurationMs`, text and metadata
from `extractEventData`.  The source's `metadata?.type ?? 'mantra'` is
always `'mantra'`: only the Mantra branch sets a type and sets it to
`'mantra'`. -/
def toTimelineEvent (cycleDurationMs eventDurationMs : ℚ) (event : Event CValue) :
    TimelineEvent :=
  let startMs := event.whole.start * cycleDurationMs
  let endMs := event.whole.stop * cycleDurationMs
  let durationMs := min (endMs - startMs) eventDurationMs
  let ed := extractEventData event.value
  ⟨.mantra, ed.1, startMs, durationMs, ed.2⟩

/-- The comparison `(a, b) => a.startMs - b.startMs` passed to the
stable `Array.prototype.sort` in `compile`. -/
def compileLE (a b : TimelineEvent) : Prop := a.startMs ≤ b.startMs

instance : DecidableRel compileLE := fun _ _ => inferInstanceAs (Decidable (_ ≤ _))

instance : IsTotal TimelineEvent compileLE := ⟨fun a b => le_total a.startMs b.startMs⟩

instance : IsTrans TimelineEvent compileLE := ⟨fun _ _ _ => le_trans⟩

/-- Models `compile` from `compile.ts`: query `[0, cycles)`, convert
each event, sort stably by `startMs` (JS `Array.prototype.sort` is
stable; insertion sort realizes the same contract), and assemble the
Timeline. -/
def compile (pattern : Pattern CValue) (cycles cycleDurationMs eventDurationMs : ℚ) :
    Timeline :=
  let querySpan : TimeSpan := ⟨0, cycles⟩
  let events := pattern querySpan
  let timelineEvents := events.map (toTimelineEvent cycleDurationMs eventDurationMs)
  let themes := collectThemes timelineEvents
  ⟨timelineEvents.insertionSort compileLE, cycles * cycleDurationMs, themes,
    cycles, cycleDurationMs⟩

/-- Syntactic pattern transforms for the `transform` argument of
`every`, mirroring the curried combinators `withFast`, `withSlow` and
`withFilter` that `combinators.ts` provides for that purpose, closed
under composition. -/
inductive TExp (α : Type) where
  | tfast (factor : ℚ)
  | tslow (factor : ℚ)
  | tfilter (pred : α → Bool)
  | tcomp (t1 t2 : TExp α)
  | tid

/-- Denotation of a syntactic transform as a pattern transform. -/
def TExp.applyT {α : Type} : TExp α → Pattern α → Pattern α
  | .tfast f, p => fast f p
  | .tslow f, p => slow f p
  | .tfilter pr, p => filter pr p
  | .tcomp t1 t2, p => t1.applyT (t2.applyT p)
  | .tid, p => p

mutual

/-- Patterns built from the public constructors of `sources.ts` and
`combinators.ts`.  The `transform` argument of `every` ranges over the
syntactic transforms `TExp`; variadic pattern arguments are `PList`
(a mutual copy of `List`, required because `α` is an index). -/
inductive PExp : Type → Type 1 where
  | pureE {α : Type} (value : α) : PExp α
  | seqE {α : Type} (values : List α) : PExp α
  | fromPoolE {α : Type} (pool : List α) (order : Order) (seed : ℤ) : PExp α
  | silenceE {α : Type} : PExp α
  | fastE {α : Type} (factor : ℚ) (p : PExp α) : PExp α
  | slowE {α : Type} (factor : ℚ) (p : PExp α) : PExp α
  | earlyE {α : Type} (amount : ℚ) (p : PExp α) : PExp α
  | lateE {α : Type} (amount : ℚ) (p : PExp α) : PExp α
  | stackE {α : Type} (ps : PList α) : PExp α
  | catE {α : Type} (ps : PList α) : PExp α
  | weaveE {α : Type} (count : ℚ) (ps : PList α) : PExp α
  | alternateE {α : Type} (cyclesEach : ℚ) (ps : PList α) : PExp α
  | fmapE {α β : Type} (fn : α → β) (p : PExp α) : PExp β
  | filterE {α : Type} (pred : α → Bool) (p : PExp α) : PExp α
  | degradeByE {α : Type} (prob : ℚ) (p : PExp α) (seed : ℤ) : PExp α
  | everyE {α : Type} (n : ℤ) (t : TExp α) (p : PExp α) : PExp α

/-- A list of constructor expressions (mutual with `PExp`). -/
inductive PList : Type → Type 1 where
  | nil {α : Type} : PList α
  | cons {α : Type} (p : PExp α) (ps : PList α) : PList α

end

mutual

/-- Denotation of a constructor expression as the pattern the source
builds; `sinF` abstracts `Math.sin` for `degradeBy`. -/
def PExp.denote (sinF : ℤ → ℚ) : {α : Type} → PExp α → Pattern α
  | _, .pureE v => pure v
  | _, .seqE vs => seq vs
  | _, .fromPoolE pool ord seed => fromPool pool ord seed
  | _, .silenceE => silence
  | _, .fastE f p => fast f (p.denote sinF)
  | _, .slowE f p => slow f (p.denote sinF)
  | _, .earlyE a p => early a (p.denote sinF)
  | _, .lateE a p => late a (p.denote sinF)
  | _, .stackE ps => stack (ps.denoteList sinF)
  | _, .catE ps => cat (ps.denoteList sinF)
  | _, .weaveE c ps => weave c (ps.denoteList sinF)
  | _, .alternateE c ps => alternate c (ps.denoteList sinF)
  | _, .fmapE fn p => fmap fn (p.denote sinF)
  | _, .filterE pr p => filter pr (p.denote sinF)
  | _, .degradeByE prob p seed => degradeBy sinF prob (p.denote sinF) seed
  | _, .everyE n t p => every n t.applyT (p.denote sinF)

/-- Denotation of a list of constructor expressions. -/
def PList.denoteList (sinF : ℤ → ℚ) : {α : Type} → PList α → List (Pattern α)
  | _, .nil => []
  | _, .cons p ps => p.denote sinF :: ps.denoteList sinF

end

/-- The span-containment chain of the spec for a single event. -/
def evChain {α : Type} (ev : Event α) : Prop :=
  ev.whole.start ≤ ev.part.start ∧ ev.part.start ≤ ev.part.stop ∧
    ev.part.stop ≤ ev.whole.stop

/-- A pattern all of whose events satisfy the containment chain, for
every valid query span. -/
def SpanOK {α : Type} (p : Pattern α) : Prop :=
  ∀ q : TimeSpan, q.start ≤ q.stop → ∀ ev ∈ p q, evChain ev

theorem spansOverlap_iff {a b : TimeSpan} :
    spansOverlap a b = true ↔ a.start < b.stop ∧ b.start < a.stop := by
  simp [spansOverlap]

theorem spanIntersection_eq_some {a b s : TimeSpan} :
    spanIntersection a b = some s ↔
      (a.start < b.stop ∧ b.start < a.stop) ∧
        s = ⟨max a.start b.start, min a.stop b.stop⟩ := by
  unfold spanIntersection
  split
  · rename_i h
    rw [spansOverlap_iff] at h
    simp [h, eq_comm]
  · rename_i h
    rw [Bool.not_eq_true, ← Bool.not_eq_true, spansOverlap_iff] at h
    simp
    intro h1 h2
    exact absurd ⟨h1, h2⟩ h

theorem evChain_of_intersection {α : Type} {w q s : TimeSpan}
    (hw : w.start ≤ w.stop) (hq : q.start ≤ q.stop)
    (h : spanIntersection w q = some s) (v : α) : evChain ⟨v, w, s⟩ := by
  rw [spanIntersection_eq_some] at h
  obtain ⟨⟨h1, h2⟩, rfl⟩ := h
  refine ⟨le_max_left _ _, ?_, min_le_left _ _⟩
  exact max_le (le_min hw h1.le) (le_min h2.le hq)

theorem evChain_shift {α : Type} {ev : Event α} (c : ℚ) (h : evChain ev) :
    evChain ⟨ev.value, ⟨ev.whole.start + c, ev.whole.stop + c⟩,
      ⟨ev.part.start + c, ev.part.stop + c⟩⟩ := by
  obtain ⟨h1, h2, h3⟩ := h
  refine ⟨?_, ?_, ?_⟩ <;> dsimp <;> linarith

theorem spanOK_silence {α : Type} : SpanOK (silence : Pattern α) := by
  intro q _ ev hev
  simp [silence] at hev

theorem spanOK_getD {α : Type} {ps : List (Pattern α)}
    (hs : ∀ p ∈ ps, SpanOK p) (i : ℕ) : SpanOK (ps.getD i silence) := by
  by_cases h : i < ps.length
  · rw [List.getD_eq_getElem ps silence h]
    exact hs _ (List.getElem_mem h)
  · rw [List.getD_eq_default ps silence (le_of_not_lt h)]
    exact spanOK_silence

theorem spanOK_pure {α : Type} (v : α) : SpanOK (pure v) := by
  intro q hq ev hev
  simp only [pure, List.mem_filterMap, Option.map_eq_some'] at hev
  obtain ⟨c, _, part, hpart, rfl⟩ := hev
  exact evChain_of_intersection (by dsimp; linarith) hq hpart v

theorem spanOK_seq {α : Type} (vs : List α) : SpanOK (seq vs) := by
  intro q hq ev hev
  match vs with
  | [] => simp [seq] at hev
  | v0 :: rest =>
    simp only [seq, List.mem_flatMap, List.mem_filterMap, Option.map_eq_some'] at hev
    obtain ⟨c, _, i, _, part, hpart, rfl⟩ := hev
    refine evChain_of_intersection ?_ hq hpart _
    dsimp
    rw [add_le_add_iff_left]
    exact mul_le_mul_of_nonneg_right (by linarith) (by positivity)

theorem spanOK_fromPool {α : Type} (pool : List α) (ord : Order) (seed : ℤ) :
    SpanOK (fromPool pool ord seed) := by
  intro q hq ev hev
  match pool with
  | [] => simp [fromPool] at hev
  | p0 :: rest =>
    simp only [fromPool, List.mem_filterMap, Option.map_eq_some'] at hev
    obtain ⟨g, _, part, hpart, rfl⟩ := hev
    refine evChain_of_intersection ?_ hq hpart _
    dsimp
    exact mul_le_mul_of_nonneg_right (by linarith) (by positivity)

theorem spanOK_fast {α : Type} (factor : ℚ) {p : Pattern α} (h : SpanOK p) :
    SpanOK (fast factor p) := by
  unfold fast
  split
  · intro q _ ev hev; simp at hev
  · split
    · exact h
    · rename_i hle _
      have hf : 0 < factor := lt_of_not_le hle
      intro q hq ev hev
      simp only [List.mem_map] at hev
      obtain ⟨ev', hev', rfl⟩ := hev
      have hq' : q.start * factor ≤ q.stop * factor :=
        mul_le_mul_of_nonneg_right hq hf.le
      obtain ⟨h1, h2, h3⟩ := h _ hq' ev' hev'
      exact ⟨(div_le_div_iff_of_pos_right hf).mpr h1,
        (div_le_div_iff_of_pos_right hf).mpr h2,
        (div_le_div_iff_of_pos_right hf).mpr h3⟩

theorem spanOK_slow {α : Type} (factor : ℚ) {p : Pattern α} (h : SpanOK p) :
    SpanOK (slow factor p) :=
  spanOK_fast _ h

theorem spanOK_early {α : Type} (amount : ℚ) {p : Pattern α} (h : SpanOK p) :
    SpanOK (early amount p) := by
  intro q hq ev hev
  simp only [early, List.mem_map] at hev
  obtain ⟨ev', hev', rfl⟩ := hev
  obtain ⟨h1, h2, h3⟩ := h ⟨q.start + amount, q.stop + amount⟩ (by simpa) ev' hev'
  exact ⟨by simpa, by simpa, by simpa⟩

theorem spanOK_late {α : Type} (amount : ℚ) {p : Pattern α} (h : SpanOK p) :
    SpanOK (late amount p) :=
  spanOK_early _ h

theorem spanOK_stack {α : Type} {ps : List (Pattern α)}
    (hs : ∀ p ∈ ps, SpanOK p) : SpanOK (stack ps) := by
  match ps with
  | [] => intro q _ ev hev; simp [stack] at hev
  | [p] => exact hs p (by simp)
  | p1 :: p2 :: rest =>
    intro q hq ev hev
    simp only [stack, List.mem_flatMap] at hev
    obtain ⟨p, hp, hev⟩ := hev
    exact hs p hp q hq ev hev

theorem spanOK_cat {α : Type} {ps : List (Pattern α)}
    (hs : ∀ p ∈ ps, SpanOK p) : SpanOK (cat ps) := by
  match ps with
  | [] => intro q _ ev hev; simp [cat] at hev
  | [p] => exact hs p (by simp)
  | p1 :: p2 :: rest =>
    intro q hq ev hev
    simp only [cat, List.mem_flatMap] at hev
    obtain ⟨meta, _, i, _, hev⟩ := hev
    split at hev
    · rename_i hov
      rw [spansOverlap_iff] at hov
      simp only [List.mem_map] at hev
      obtain ⟨ev', hev', rfl⟩ := hev
      set cs : ℚ := ((meta * (p1 :: p2 :: rest).length + i : ℤ) : ℚ) with hcs
      have hloc : max 0 (q.start - cs) ≤ min 1 (q.stop - cs) := by
        obtain ⟨ho1, ho2⟩ := hov
        simp only [hcs] at ho1 ho2 ⊢
        apply max_le
        · exact le_min zero_le_one (by linarith)
        · exact le_min (by linarith) (by linarith)
      have := spanOK_getD hs i _ hloc ev' hev'
      exact evChain_shift _ this
    · simp at hev

theorem spanOK_weave {α : Type} (count : ℚ) {ps : List (Pattern α)}
    (hs : ∀ p ∈ ps, SpanOK p) : SpanOK (weave count ps) := by
  match ps with
  | [] => intro q _ ev hev; simp [weave] at hev
  | [p] => exact hs p (by simp)
  | p1 :: p2 :: rest =>
    intro q hq ev hev
    unfold weave at hev
    dsimp only at hev
    split at hev
    · simp at hev
    · dsimp only at hev
      split at hev
      · simp at hev
      · simp only [List.mem_flatMap, List.mem_filterMap, Option.map_eq_some'] at hev
        obtain ⟨round, _, patIndex, _, ev', _, rfl⟩ := hev
        refine ⟨le_refl _, ?_, le_refl _⟩
        dsimp
        rw [add_le_add_iff_left]
        exact mul_le_mul_of_nonneg_right (by linarith) (by positivity)

theorem spanOK_alternate {α : Type} (cyclesEach : ℚ) {ps : List (Pattern α)}
    (hs : ∀ p ∈ ps, SpanOK p) : SpanOK (alternate cyclesEach ps) := by
  match ps with
  | [] => intro q _ ev hev; simp [alternate] at hev
  | [p] => exact hs p (by simp)
  | p1 :: p2 :: rest =>
    intro q hq ev hev
    simp only [alternate, List.mem_flatMap] at hev
    obtain ⟨pos, _, hev⟩ := hev
    split at hev
    · rename_i hov
      simp only [List.mem_map] at hev
      obtain ⟨ev', hev', rfl⟩ := hev
      have hloc : max q.start ((pos : ℚ) * cyclesEach) - (pos : ℚ) * cyclesEach ≤
          min q.stop ((pos : ℚ) * cyclesEach + cyclesEach) - (pos : ℚ) * cyclesEach := by
        linarith
      have := spanOK_slow cyclesEach
        (spanOK_getD hs (pos % ((p1 :: p2 :: rest).length : ℤ)).toNat) _ hloc ev' hev'
      exact evChain_shift _ this
    · simp at hev

theorem spanOK_fmap {α β : Type} (fn : α → β) {p : Pattern α} (h : SpanOK p) :
    SpanOK (fmap fn p) := by
  intro q hq ev hev
  simp only [fmap, List.mem_map] at hev
  obtain ⟨ev', hev', rfl⟩ := hev
  exact h q hq ev' hev'

theorem spanOK_filter {α : Type} (pred : α → Bool) {p : Pattern α} (h : SpanOK p) :
    SpanOK (filter pred p) := by
  intro q hq ev hev
  simp only [filter, List.mem_filter] at hev
  exact h q hq ev hev.1

theorem spanOK_degradeBy {α : Type} (sinF : ℤ → ℚ) (prob : ℚ) (seed : ℤ)
    {p : Pattern α} (h : SpanOK p) : SpanOK (degradeBy sinF prob p seed) := by
  unfold degradeBy
  split
  · exact h
  · split
    · intro q _ ev hev; simp at hev
    · intro q hq ev hev
      simp only [List.mem_filter] at hev
      exact h q hq ev hev.1

theorem spanOK_every {α : Type} (n : ℤ) {transform : Pattern α → Pattern α}
    {p : Pattern α} (ht : SpanOK (transform p)) (h : SpanOK p) :
    SpanOK (every n transform p) := by
  unfold every
  split
  · exact h
  · intro q hq ev hev
    simp only [List.mem_flatMap] at hev
    obtain ⟨cycle, _, hev⟩ := hev
    split at hev
    · simp at hev
    · rename_i qp hqp
      rw [spanIntersection_eq_some] at hqp
      obtain ⟨⟨ho1, ho2⟩, rfl⟩ := hqp
      simp only [List.mem_map] at hev
      obtain ⟨ev', hev', rfl⟩ := hev
      have hloc : max (cycle : ℚ) q.start - (cycle : ℚ) ≤
          min ((cycle : ℚ) + 1) q.stop - (cycle : ℚ) := by
        simp only [sub_le_sub_iff_right]
        exact max_le (le_min (by linarith) ho1.le) (le_min ho2.le hq)
      have hch : evChain ev' := by
        split at hev'
        · exact ht _ hloc ev' hev'
        · exact h _ hloc ev' hev'
      exact evChain_shift _ hch

theorem spanOK_applyT {α : Type} (t : TExp α) {p : Pattern α} (h : SpanOK p) :
    SpanOK (t.applyT p) := by
  induction t generalizing p with
  | tfast f => exact spanOK_fast f h
  | tslow f => exact spanOK_slow f h
  | tfilter pr => exact spanOK_filter pr h
  | tcomp t1 t2 ih1 ih2 => exact ih1 (ih2 h)
  | tid => exact h

mutual

theorem denote_spanOK (sinF : ℤ → ℚ) : {α : Type} → (e : PExp α) →
    SpanOK (e.denote sinF)
  | _, .pureE v => spanOK_pure v
  | _, .seqE vs => spanOK_seq vs
  | _, .fromPoolE pool ord seed => spanOK_fromPool pool ord seed
  | _, .silenceE => spanOK_silence
  | _, .fastE f p => spanOK_fast f (denote_spanOK sinF p)
  | _, .slowE f p => spanOK_slow f (denote_spanOK sinF p)
  | _, .earlyE a p => spanOK_early a (denote_spanOK sinF p)
  | _, .lateE a p => spanOK_late a (denote_spanOK sinF p)
  | _, .stackE ps => spanOK_stack (denoteList_spanOK sinF ps)
  | _, .catE ps => spanOK_cat (denoteList_spanOK sinF ps)
  | _, .weaveE c ps => spanOK_weave c (denoteList_spanOK sinF ps)
  | _, .alternateE c ps => spanOK_alternate c (denoteList_spanOK sinF ps)
  | _, .fmapE fn p => spanOK_fmap fn (denote_spanOK sinF p)
  | _, .filterE pr p => spanOK_filter pr (denote_spanOK sinF p)
  | _, .degradeByE prob p seed => spanOK_degradeBy sinF prob seed (denote_spanOK sinF p)
  | _, .everyE n t p =>
      spanOK_every n (spanOK_applyT t (denote_spanOK sinF p)) (denote_spanOK sinF p)

theorem denoteList_spanOK (sinF : ℤ → ℚ) : {α : Type} → (ps : PList α) →
    ∀ p ∈ ps.denoteList sinF, SpanOK p
  | _, .nil => by intro p hp; simp [PList.denoteList] at hp
  | _, .cons e es => by
      intro p hp
      simp only [PList.denoteList, List.mem_cons] at hp
      rcases hp with rfl | hp
      · exact denote_spanOK sinF e
      · exact denoteList_spanOK sinF es p hp

end

theorem seq01_small : seq [(0:ℕ), 1] ⟨0, 1/10⟩ = [⟨0, ⟨0, 1/2⟩, ⟨0, 1/10⟩⟩] := by
  have h2 : ⌈(1:ℚ)/10⌉ = 1 := by rw [Int.ceil_eq_iff]; norm_num
  simp only [seq, h2]
  norm_num [intRange, spanIntersection, spansOverlap, List.range_succ,
    List.filterMap_cons, List.flatMap_cons]

theorem seq23_small : seq [(2:ℕ), 3] ⟨0, 1/10⟩ = [⟨2, ⟨0, 1/2⟩, ⟨0, 1/10⟩⟩] := by
  have h2 : ⌈(1:ℚ)/10⌉ = 1 := by rw [Int.ceil_eq_iff]; norm_num
  simp only [seq, h2]
  norm_num [intRange, spanIntersection, spansOverlap, List.range_succ,
    List.filterMap_cons, List.flatMap_cons]

/-- C1 (amended): for every pattern built from the public constructors
and every valid query span, every returned event satisfies
`whole.start ≤ part.start ≤ part.end ≤ whole.end`.  (The second half of
the original claim — `part = whole` exactly when the query contains the
whole span — is false; see the counterexample.) -/
theorem C1_span_containment (sinF : ℤ → ℚ) {α : Type} (e : PExp α) (q : TimeSpan)
    (hq : q.start ≤ q.stop) :
    ∀ ev ∈ e.denote sinF q,
      ev.whole.start ≤ ev.part.start ∧ ev.part.start ≤ ev.part.stop ∧
        ev.part.stop ≤ ev.whole.stop :=
  denote_spanOK sinF e q hq

/-- Witness for C1: the amended containment chain, instantiated at the
two-element sequence pattern and the query span `[0, 1/10)`. -/
theorem C1_span_containment_witness :
    (0:ℚ) ≤ 1/10 ∧
      ∀ ev ∈ (PExp.seqE [(0:ℕ), 1]).denote (fun _ => 0) ⟨0, 1/10⟩,
        ev.whole.start ≤ ev.part.start ∧ ev.part.start ≤ ev.part.stop ∧
          ev.part.stop ≤ ev.whole.stop :=
  ⟨by norm_num, C1_span_containment (fun _ => 0) (PExp.seqE [0, 1]) ⟨0, 1/10⟩ (by norm_num)⟩

/-- Counterexample to C1 as stated: `weave(1, seq(0,1), seq(2,3))`
queried over `[0, 1/10)` returns a first event whose `part` equals its
`whole = [0, 1/2)`, although the query span `[0, 1/10)` does not
contain that whole span (`1/2 > 1/10`) — so `part = whole` does not
hold "exactly when the query fully contains the event's whole span". -/
theorem C1_counterexample :
    (weave 1 [seq [(0:ℕ), 1], seq [2, 3]] ⟨0, 1/10⟩).head? =
        some ⟨0, ⟨0, 1/2⟩, ⟨0, 1/2⟩⟩ ∧
      ¬ ((1:ℚ)/2 ≤ 1/10) := by
  constructor
  · simp only [weave]
    norm_num [seq01_small, seq23_small, List.range_succ, List.filterMap_cons,
      List.flatMap_cons]
  · norm_num

/-- The result of querying a pattern twice over the same span, in call
order: the pair of the two runs' event lists. -/
def queryTwice {α : Type} (p : Pattern α) (q : TimeSpan) :
    List (Event α) × List (Event α) :=
  (p q, p q)

/-- C2: a pattern built from the public constructors with all seeds
supplied explicitly, queried twice over the same span, returns
identical event sequences — same values, same whole and part spans, in
the same order.  In this embedding every source of randomness
(mulberry32 keyed by explicit seed and call index, the sine hash keyed
by event position and seed) is a pure function of seed and query
position, and patterns carry no state, so the two runs coincide. -/
theorem C2_determinism (sinF : ℤ → ℚ) {α : Type} (e : PExp α) (q : TimeSpan) :
    (queryTwice (e.denote sinF) q).1 = (queryTwice (e.denote sinF) q).2 :=
  rfl

/-- C4: `slow(f, fast(f, p))` queried over any span yields exactly the
events of `p` over that span for every `f > 0` (exact in rational
arithmetic); `fast` with a non-positive factor produces no events; and
`fast(1, p)` is the identity on `p`. -/
theorem C4_fast_slow_inverse {α : Type} :
    (∀ (f : ℚ) (p : Pattern α) (q : TimeSpan), 0 < f →
        slow f (fast f p) q = p q) ∧
      (∀ (f : ℚ) (p : Pattern α) (q : TimeSpan), f ≤ 0 → fast f p q = []) ∧
      (∀ p : Pattern α, fast 1 p = p) := by
  refine ⟨?_, ?_, ?_⟩
  · intro f p q hf
    by_cases h1 : f = 1
    · subst h1
      norm_num [slow, fast]
    · have hf0 : ¬ f ≤ 0 := not_le.mpr hf
      have hi : 0 < 1 / f := by positivity
      have hi0 : ¬ (1 / f ≤ 0) := not_le.mpr hi
      have hi1 : 1 / f ≠ 1 := by
        intro h
        rw [div_eq_one_iff_eq (ne_of_gt hf)] at h
        exact h1 h.symm
      simp only [slow, fast, if_neg hf0, if_neg h1, if_neg hi0, if_neg hi1]
      have hspan : ∀ x : ℚ, x * (1 / f) * f = x := by
        intro x; field_simp
      rw [List.map_map]
      simp only [hspan]
      have hne : f ≠ 0 := ne_of_gt hf
      have hdiv : ∀ x : ℚ, x / f / (1 / f) = x := by
        intro x; field_simp
      simp only [Function.comp_def, hdiv]
      exact List.map_id _
  · intro f p q hf
    simp [fast, hf]
  · intro p
    norm_num [fast]

/-- Witness for C4: the inverse law at `f = 2` on `pure 5` over
`[0, 3)`, and silence of `fast` at the negative factor `-1`. -/
theorem C4_fast_slow_inverse_witness :
    ((0:ℚ) < 2 ∧ slow 2 (fast 2 (pure (5:ℕ))) ⟨0, 3⟩ = pure 5 ⟨0, 3⟩) ∧
      ((-1:ℚ) ≤ 0 ∧ fast (-1) (pure (5:ℕ)) ⟨0, 3⟩ = []) :=
  ⟨⟨by norm_num, C4_fast_slow_inverse.1 2 (pure 5) ⟨0, 3⟩ (by norm_num)⟩,
    ⟨by norm_num, C4_fast_slow_inverse.2.1 (-1) (pure 5) ⟨0, 3⟩ (by norm_num)⟩⟩

/-- C7: `degradeBy(prob, p, seed)` with `prob ≤ 0` equals `p` exactly
and with `prob ≥ 1` produces no events; for `0 < prob < 1` an event is
kept iff `degradeKeep` holds of its whole-span start time and the seed
alone, so the same absolute event position receives the same keep/drop
decision regardless of the query span, stably under re-query. -/
theorem C7_degradeBy_bounds (sinF : ℤ → ℚ) {α : Type} (prob : ℚ) (p : Pattern α)
    (seed : ℤ) :
    (prob ≤ 0 → ∀ q, degradeBy sinF prob p seed q = p q) ∧
      (1 ≤ prob → ∀ q, degradeBy sinF prob p seed q = []) ∧
      (0 < prob → prob < 1 → ∀ (q : TimeSpan) (ev : Event α),
        ev ∈ degradeBy sinF prob p seed q ↔
          ev ∈ p q ∧ degradeKeep sinF prob seed ev.whole.start = true) := by
  refine ⟨?_, ?_, ?_⟩
  · intro h q
    simp [degradeBy, h]
  · intro h q
    have h0 : ¬ prob ≤ 0 := by linarith
    simp [degradeBy, h0, h]
  · intro h0 h1 q ev
    have hle : ¬ prob ≤ 0 := by linarith
    have hge : ¬ 1 ≤ prob := by linarith
    simp [degradeBy, hle, hge, List.mem_filter]

/-- Witness for C7: the three regimes at `prob = 0`, `prob = 1` and
`prob = 1/2`, on `pure 3` with seed 5 and the zero sine stub. -/
theorem C7_degradeBy_bounds_witness :
    ((0:ℚ) ≤ 0 ∧ degradeBy (fun _ => 0) 0 (pure (3:ℕ)) 5 ⟨0, 1⟩ = pure 3 ⟨0, 1⟩) ∧
      ((1:ℚ) ≤ 1 ∧ degradeBy (fun _ => 0) 1 (pure (3:ℕ)) 5 ⟨0, 1⟩ = []) ∧
      ((0:ℚ) < 1/2 ∧ (1/2:ℚ) < 1 ∧
        ((⟨3, ⟨0, 1⟩, ⟨0, 1⟩⟩ : Event ℕ) ∈
            degradeBy (fun _ => 0) (1/2) (pure 3) 5 ⟨0, 1⟩ ↔
          (⟨3, ⟨0, 1⟩, ⟨0, 1⟩⟩ : Event ℕ) ∈ pure (3:ℕ) ⟨0, 1⟩ ∧
            degradeKeep (fun _ => 0) (1/2) 5 0 = true)) :=
  ⟨⟨by norm_num, (C7_degradeBy_bounds (fun _ => 0) 0 (pure 3) 5).1 le_rfl ⟨0, 1⟩⟩,
    ⟨by norm_num, (C7_degradeBy_bounds (fun _ => 0) 1 (pure 3) 5).2.1 le_rfl ⟨0, 1⟩⟩,
    by norm_num, by norm_num,
    (C7_degradeBy_bounds (fun _ => 0) (1/2) (pure 3) 5).2.2 (by norm_num) (by norm_num)
      ⟨0, 1⟩ ⟨3, ⟨0, 1⟩, ⟨0, 1⟩⟩⟩

/-- C8 (amended): `fromPool` with an empty pool, `fast` with `f ≤ 0`,
`weave` with `count ≤ 0` and at least two patterns, and the empty
argument lists of `stack`, `cat`, `weave` and `alternate` all produce
zero events for every query; `every(n, t, p)` with `n ≤ 0`, however,
returns `p` unchanged rather than silence (see the counterexample). -/
theorem C8_degenerate_inputs {α : Type} :
    (∀ (ord : Order) (seed : ℤ) (q : TimeSpan), fromPool ([] : List α) ord seed q = []) ∧
      (∀ (f : ℚ) (p : Pattern α) (q : TimeSpan), f ≤ 0 → fast f p q = []) ∧
      (∀ (count : ℚ) (p1 p2 : Pattern α) (ps : List (Pattern α)) (q : TimeSpan),
        count ≤ 0 → weave count (p1 :: p2 :: ps) q = []) ∧
      (∀ (n : ℤ) (t : Pattern α → Pattern α) (p : Pattern α), n ≤ 0 → every n t p = p) ∧
      (∀ q : TimeSpan, stack ([] : List (Pattern α)) q = []) ∧
      (∀ q : TimeSpan, cat ([] : List (Pattern α)) q = []) ∧
      (∀ (c : ℚ) (q : TimeSpan), weave c ([] : List (Pattern α)) q = []) ∧
      (∀ (m : ℚ) (q : TimeSpan), alternate m ([] : List (Pattern α)) q = []) := by
  refine ⟨?_, ?_, ?_, ?_, ?_, ?_, ?_, ?_⟩
  · intro ord seed q; simp [fromPool]
  · intro f p q hf; simp [fast, hf]
  · intro count p1 p2 ps q hc; simp [weave, hc]
  · intro n t p hn; simp [every, hn]
  · intro q; simp [stack]
  · intro q; simp [cat]
  · intro c q; simp [weave]
  · intro m q; simp [alternate]

/-- Witness for C8: the degenerate cases at concrete inputs — empty
pool, `fast` factor `-2`, `weave` count `0` on two patterns, and
`every` with `n = 0` (identity). -/
theorem C8_degenerate_inputs_witness :
    fromPool ([] : List ℕ) Order.shuffle 0 ⟨0, 2⟩ = [] ∧
      ((-2:ℚ) ≤ 0 ∧ fast (-2) (pure (1:ℕ)) ⟨0, 2⟩ = []) ∧
      ((0:ℚ) ≤ 0 ∧ weave 0 [pure (1:ℕ), pure 2] ⟨0, 2⟩ = []) ∧
      ((0:ℤ) ≤ 0 ∧ every 0 (fun p => p) (pure (1:ℕ)) = pure 1) ∧
      stack ([] : List (Pattern ℕ)) ⟨0, 2⟩ = [] :=
  ⟨C8_degenerate_inputs.1 Order.shuffle 0 ⟨0, 2⟩,
    ⟨by norm_num, C8_degenerate_inputs.2.1 (-2) (pure 1) ⟨0, 2⟩ (by norm_num)⟩,
    ⟨le_rfl, C8_degenerate_inputs.2.2.1 0 (pure 1) (pure 2) [] ⟨0, 2⟩ le_rfl⟩,
    ⟨le_rfl, C8_degenerate_inputs.2.2.2.1 0 (fun p => p) (pure 1) le_rfl⟩,
    C8_degenerate_inputs.2.2.2.2.1 ⟨0, 2⟩⟩

/-- Counterexample to C8 as stated, in both places it fails:
`every(0, id, pure 7)` queried over `[0, 1)` returns one event, not
zero — the source's `every` returns the pattern unchanged for `n ≤ 0`;
and `weave(0, pure 7)` with a single pattern also returns that event —
the source's `weave` returns a lone pattern before ever checking
`count ≤ 0`. -/
theorem C8_counterexample :
    (every 0 (fun p => p) (pure (7:ℕ)) ⟨0, 1⟩ = [⟨7, ⟨0, 1⟩, ⟨0, 1⟩⟩] ∧
        weave 0 [pure (7:ℕ)] ⟨0, 1⟩ = [⟨7, ⟨0, 1⟩, ⟨0, 1⟩⟩]) ∧
      ([⟨7, ⟨0, 1⟩, ⟨0, 1⟩⟩] : List (Event ℕ)) ≠ [] := by
  refine ⟨⟨?_, ?_⟩, by simp⟩
  · simp only [every]
    norm_num [pure, intRange, spanIntersection, spansOverlap, List.filterMap_cons,
      List.range_succ, List.flatMap_cons, List.flatMap_nil]
  · simp only [weave]
    norm_num [pure, intRange, spanIntersection, spansOverlap, List.filterMap_cons,
      List.range_succ, List.flatMap_cons, List.flatMap_nil]

/-- C9 (amended): parsing a difficulty that is present is a function of
the uppercased string (hence case-insensitive), each of the five levels
parses to itself in any case, the alias `MODERATE` collapses to
`MEDIUM`, and an empty or unknown string maps to `BASIC` (the lowest
level in `DIFFICULTY_ORDER`) without error; a missing difficulty value,
however, raises a TypeError at `raw.toUpperCase()`, which the
surrounding try/catch of `loadMantrasForTheme` converts into discarding
the whole theme's records, not a `BASIC` default (see the
counterexample). -/
theorem C9_mapDifficulty :
    (∀ s t : String, jsToUpper s = jsToUpper t → mapDifficulty s = mapDifficulty t) ∧
      mapDifficulty "basic" = .BASIC ∧ mapDifficulty "Light" = .LIGHT ∧
      mapDifficulty "medium" = .MEDIUM ∧ mapDifficulty "MODERATE" = .MEDIUM ∧
      mapDifficulty "moderate" = .MEDIUM ∧ mapDifficulty "deep" = .DEEP ∧
      mapDifficulty "Extreme" = .EXTREME ∧ mapDifficulty "" = .BASIC ∧
      mapDifficulty "garbage" = .BASIC ∧
      difficultyIndex .BASIC = 0 ∧ (∀ d, difficultyIndex .BASIC ≤ difficultyIndex d) ∧
      (∀ s : String, mapDifficultyDyn (some s) = .ok (mapDifficulty s)) ∧
      mapDifficultyDyn none = .error () ∧
      (∀ e : RawMantraEntry, e.difficulty = none → ∀ l1 l2 : List RawMantraEntry,
        loadEntries (l1 ++ e :: l2) = []) := by
  refine ⟨?_, ?_, ?_, ?_, ?_, ?_, ?_, ?_, ?_, ?_, ?_, ?_, ?_, ?_, ?_⟩
  · intro s t h
    unfold mapDifficulty
    rw [h]
  · decide
  · decide
  · decide
  · decide
  · decide
  · decide
  · decide
  · decide
  · decide
  · decide
  · intro d; cases d <;> decide
  · intro s; rfl
  · rfl
  · intro e he l1 l2
    have herr : normalizeEntry e = .error () := by
      simp [normalizeEntry, mapDifficultyDyn, he]
    unfold loadEntries
    have hmapM : (l1 ++ e :: l2).mapM normalizeEntry = .error () := by
      induction l1 with
      | nil =>
        rw [List.nil_append, List.mapM_cons, herr]
        rfl
      | cons hd tl ih =>
        rw [List.cons_append, List.mapM_cons]
        cases hne : normalizeEntry hd with
        | error u => cases u; rfl
        | ok m => rw [ih]; rfl
    rw [hmapM]

/-- Counterexample to C9 as stated: a raw record with a missing
difficulty field does not map to `BASIC` — `mapDifficulty` throws a
TypeError at `raw.toUpperCase()`, and the catch in
`loadMantrasForTheme` then discards the entire theme's records. -/
theorem C9_counterexample :
    mapDifficultyDyn none = .error () ∧
      (Except.error () : Except Unit Difficulty) ≠ .ok .BASIC ∧
      loadEntries [{ line := "l", theme := "t", difficulty := none }] = [] := by
  refine ⟨rfl, by simp, rfl⟩

/-- Witness for C9: case-insensitivity applied at the concrete pair
`"Basic"` / `"BASIC"`. -/
theorem C9_mapDifficulty_witness :
    jsToUpper "Basic" = jsToUpper "BASIC" ∧
      mapDifficulty "Basic" = mapDifficulty "BASIC" :=
  ⟨by decide, C9_mapDifficulty.1 "Basic" "BASIC" (by decide)⟩

/-- Shift a list of events by a constant: the translation applied when
`cat`, `alternate` and `every` re-stitch locally queried results back
into global time. -/
def translateEvents {α : Type} (c : ℚ) (evs : List (Event α)) : List (Event α) :=
  evs.map fun ev =>
    ⟨ev.value, ⟨ev.whole.start + c, ev.whole.stop + c⟩,
      ⟨ev.part.start + c, ev.part.stop + c⟩⟩

theorem flatMap_eq_of_single {β γ : Type} [DecidableEq β] {l : List β} {f : β → List γ}
    {a : β} (ha : l.count a = 1) (h0 : ∀ x ∈ l, x ≠ a → f x = []) :
    l.flatMap f = f a := by
  induction l with
  | nil => simp at ha
  | cons hd tl ih =>
    by_cases h : hd = a
    · subst h
      rw [List.count_cons_self] at ha
      have htl : tl.count hd = 0 := by omega
      have hnil : tl.flatMap f = [] := by
        rw [List.flatMap_eq_nil_iff]
        intro x hx
        apply h0 x (List.mem_cons_of_mem _ hx)
        intro hxa
        subst hxa
        rw [List.count_eq_zero] at htl
        exact htl hx
      rw [List.flatMap_cons, hnil, List.append_nil]
    · rw [List.count_cons_of_ne (Ne.symm h)] at ha
      rw [List.flatMap_cons, h0 hd (List.mem_cons_self _ _) h, List.nil_append]
      exact ih ha (fun x hx => h0 x (List.mem_cons_of_mem _ hx))

/-- The single-cycle behaviour of `cat`: over the query `[c, c+1)` the
concatenation of `n ≥ 2` patterns equals pattern `c % n` queried over
the local unit cycle `[0, 1)` and translated by `c`. -/
theorem cat_cycle {α : Type} (p1 p2 : Pattern α) (rest : List (Pattern α)) (c : ℕ) :
    cat (p1 :: p2 :: rest) ⟨(c : ℚ), (c : ℚ) + 1⟩ =
      translateEvents (c : ℚ)
        ((p1 :: p2 :: rest).getD (c % (p1 :: p2 :: rest).length) silence ⟨0, 1⟩) := by
  simp only [cat]
  set n := (p1 :: p2 :: rest).length with hn
  have hn2 : 2 ≤ n := by simp [hn]
  have hnpos : 0 < n := by omega
  set m := c / n with hm
  set r := c % n with hr
  have hrlt : r < n := Nat.mod_lt _ hnpos
  have hc : c = m * n + r := by
    rw [hm, hr]
    exact (Nat.div_add_mod' c n).symm
  have hcq : (c : ℚ) = (m : ℚ) * (n : ℚ) + (r : ℚ) := by
    exact_mod_cast congrArg (Nat.cast : ℕ → ℚ) hc
  have hrq : (r : ℚ) < (n : ℚ) := by exact_mod_cast hrlt
  have hnq : (0 : ℚ) < (n : ℚ) := by exact_mod_cast hnpos
  have hfloor : ⌊(c : ℚ) / (n : ℚ)⌋ = (m : ℤ) := by
    rw [show ((c:ℕ) : ℚ) = (((c:ℕ) : ℤ) : ℚ) by push_cast; ring]
    rw [Rat.floor_intCast_div_natCast, hm]
    exact (Int.natCast_div c n).symm
  have hrq0 : (0 : ℚ) ≤ (r : ℚ) := Nat.cast_nonneg r
  have hr1 : (r : ℚ) + 1 ≤ (n : ℚ) := by exact_mod_cast Nat.succ_le_of_lt hrlt
  have hceil : ⌈((c : ℚ) + 1) / (n : ℚ)⌉ = (m : ℤ) + 1 := by
    rw [Int.ceil_eq_iff]
    constructor
    · push_cast
      rw [lt_div_iff₀ hnq]
      have hmn : ((m : ℚ) + 1 - 1) * (n : ℚ) = (m : ℚ) * (n : ℚ) := by ring
      rw [hmn]
      linarith
    · rw [div_le_iff₀ hnq]
      push_cast
      have hmn : ((m : ℚ) + 1) * (n : ℚ) = (m : ℚ) * (n : ℚ) + (n : ℚ) := by ring
      rw [hmn]
      linarith
  have hsingle : intRange ⌊(c : ℚ) / (n : ℚ)⌋ ⌈((c : ℚ) + 1) / (n : ℚ)⌉ = [(m : ℤ)] := by
    rw [hfloor, hceil]
    norm_num [intRange, List.range_succ]
  rw [hsingle]
  rw [List.flatMap_cons, List.flatMap_nil, List.append_nil]
  have hcs : ((m : ℤ) * (n : ℕ) + (r : ℕ) : ℤ) = (c : ℤ) := by
    exact_mod_cast hc.symm
  rw [flatMap_eq_of_single
    (List.count_eq_one_of_mem (List.nodup_range n) (List.mem_range.mpr hrlt)) ?side]
  case side =>
    intro x hx hxr
    rw [List.mem_range] at hx
    have hfalse : spansOverlap
        ⟨((m : ℤ) * (n : ℕ) + (x : ℕ) : ℤ), ((m : ℤ) * (n : ℕ) + (x : ℕ) : ℤ) + 1⟩
        ⟨(c : ℚ), (c : ℚ) + 1⟩ = false := by
      simp only [spansOverlap, Bool.and_eq_false_iff, decide_eq_false_iff_not, not_lt]
      have hx1 : ((m : ℤ) * (n : ℕ) + (x : ℕ) : ℤ) ≠ (c : ℤ) := by
        intro hEq
        apply hxr
        omega
      rcases lt_or_gt_of_ne hx1 with hlt | hgt
      · right
        have hle : ((m : ℤ) * (n : ℕ) + (x : ℕ) : ℤ) + 1 ≤ (c : ℤ) := by omega
        calc (((m : ℤ) * (n : ℕ) + (x : ℕ) : ℤ) : ℚ) + 1
            = ((((m : ℤ) * (n : ℕ) + (x : ℕ) + 1 : ℤ)) : ℚ) := by push_cast; ring
          _ ≤ ((c : ℤ) : ℚ) := by exact_mod_cast hle
          _ = (c : ℚ) := by push_cast; ring
      · left
        have hle : (c : ℤ) + 1 ≤ ((m : ℤ) * (n : ℕ) + (x : ℕ) : ℤ) := by omega
        calc (c : ℚ) + 1 = (((c : ℤ) + 1 : ℤ) : ℚ) := by push_cast; ring
          _ ≤ ((((m : ℤ) * (n : ℕ) + (x : ℕ) : ℤ)) : ℚ) := by exact_mod_cast hle
    simp only [hfalse, Bool.false_eq_true, if_false]
  rw [hcs]
  have hcc : (((c : ℕ) : ℤ) : ℚ) = (c : ℚ) := by push_cast; ring
  rw [hcc]
  have hov : spansOverlap ⟨(c:ℚ), (c:ℚ)+1⟩ ⟨(c:ℚ), (c:ℚ)+1⟩ = true := by
    simp [spansOverlap]
  rw [if_pos hov]
  norm_num [translateEvents]

/-- C3: `cat(a, b)` queried over `[i, i+1)` yields exactly the events
of `a` over local `[0, 1)` translated by `i` for even `i`, of `b` for
odd `i`; and in general `cat(p1..pn)` (with `n ≥ 2`) over cycle
`k*n + i` yields pattern `i`'s local unit-cycle events translated by
`k*n + i`, for all `k ≥ 0` — ownership wraps indefinitely and each
cycle of a query is served by its owning pattern. -/
theorem C3_cat_ownership {α : Type} :
    (∀ (a b : Pattern α) (i : ℕ),
        cat [a, b] ⟨(i : ℚ), (i : ℚ) + 1⟩ =
          if i % 2 = 0 then translateEvents (i : ℚ) (a ⟨0, 1⟩)
          else translateEvents (i : ℚ) (b ⟨0, 1⟩)) ∧
      (∀ (p1 p2 : Pattern α) (rest : List (Pattern α)) (k i : ℕ),
        i < (p1 :: p2 :: rest).length →
        cat (p1 :: p2 :: rest)
            ⟨((k * (p1 :: p2 :: rest).length + i : ℕ) : ℚ),
              ((k * (p1 :: p2 :: rest).length + i : ℕ) : ℚ) + 1⟩ =
          translateEvents ((k * (p1 :: p2 :: rest).length + i : ℕ) : ℚ)
            ((p1 :: p2 :: rest).getD i silence ⟨0, 1⟩)) := by
  constructor
  · intro a b i
    have h := cat_cycle a b [] i
    by_cases h2 : i % 2 = 0
    · rw [if_pos h2]
      simpa [h2] using h
    · have h1 : i % 2 = 1 := by omega
      rw [if_neg h2]
      simpa [h1] using h
  · intro p1 p2 rest k i hi
    have h := cat_cycle p1 p2 rest (k * (p1 :: p2 :: rest).length + i)
    have hmod : (k * (p1 :: p2 :: rest).length + i) % (p1 :: p2 :: rest).length = i := by
      rw [Nat.add_comm, Nat.add_mul_mod_self_right, Nat.mod_eq_of_lt hi]
    rwa [hmod] at h

/-- Witness for C3: cycle `1*3 + 1 = 4` of a three-pattern `cat` is
owned by the second pattern. -/
theorem C3_cat_ownership_witness :
    1 < ([pure (0:ℕ), pure 1, pure 2] : List (Pattern ℕ)).length ∧
      cat [pure (0:ℕ), pure 1, pure 2]
          ⟨((1 * [pure (0:ℕ), pure 1, pure 2].length + 1 : ℕ) : ℚ),
            ((1 * [pure (0:ℕ), pure 1, pure 2].length + 1 : ℕ) : ℚ) + 1⟩ =
        translateEvents ((1 * [pure (0:ℕ), pure 1, pure 2].length + 1 : ℕ) : ℚ)
          (pure 1 ⟨0, 1⟩) :=
  ⟨by norm_num, C3_cat_ownership.2 (pure 0) (pure 1) [pure 2] 1 1 (by norm_num)⟩

theorem seq_pair_unit {α : Type} (a b : α) :
    seq [a, b] ⟨0, 1⟩ =
      [⟨a, ⟨0, 1/2⟩, ⟨0, 1/2⟩⟩, ⟨b, ⟨1/2, 1⟩, ⟨1/2, 1⟩⟩] := by
  simp only [seq]
  norm_num [intRange, spanIntersection, spansOverlap, List.range_succ,
    List.filterMap_cons, List.flatMap_cons]

/-- C6: `weave(1, seq(a,b), seq(x,y))` over the single cycle `[0, 1)`
yields exactly four events, two from each source, in strict round-robin
order `a, x, b, y`, re-laid into `2 × 2 = 4` equal slots of width `1/4`
with `part = whole`, discarding the sources' original timing. -/
theorem C6_weave_fairness {α : Type} (a b x y : α) :
    weave 1 [seq [a, b], seq [x, y]] ⟨0, 1⟩ =
      [⟨a, ⟨0, 1/4⟩, ⟨0, 1/4⟩⟩, ⟨x, ⟨1/4, 1/2⟩, ⟨1/4, 1/2⟩⟩,
        ⟨b, ⟨1/2, 3/4⟩, ⟨1/2, 3/4⟩⟩, ⟨y, ⟨3/4, 1⟩, ⟨3/4, 1⟩⟩] := by
  simp only [weave]
  norm_num [seq_pair_unit, List.range_succ, List.filterMap_cons, List.flatMap_cons]

/-- C10: every event of `weave(count, p1..pn)` with `count ≥ 1` and
`n ≥ 2` has its whole and part spans inside the single cycle
`[⌊span.start⌋, ⌊span.start⌋ + 1]`: a multi-cycle query has all
interleaved events re-laid into the first queried cycle. -/
theorem C10_weave_single_cycle {α : Type} (count : ℚ) (p1 p2 : Pattern α)
    (ps : List (Pattern α)) (q : TimeSpan) (hc : 1 ≤ count) :
    ∀ ev ∈ weave count (p1 :: p2 :: ps) q,
      ((⌊q.start⌋ : ℚ) ≤ ev.whole.start ∧ ev.whole.stop ≤ (⌊q.start⌋ : ℚ) + 1) ∧
        ((⌊q.start⌋ : ℚ) ≤ ev.part.start ∧ ev.part.stop ≤ (⌊q.start⌋ : ℚ) + 1) := by
  intro ev hev
  unfold weave at hev
  dsimp only at hev
  split at hev
  · simp at hev
  · dsimp only at hev
    split at hev
    · simp at hev
    · rename_i hmax
      simp only [List.mem_flatMap, List.mem_filterMap, Option.map_eq_some'] at hev
      obtain ⟨round, hround, patIndex, hpat, ev', hget, rfl⟩ := hev
      rw [List.mem_range] at hround hpat
      set M := (((p1 :: p2 :: ps).map fun pat => pat q).map List.length).foldr max 0
        with hM
      set n := (p1 :: p2 :: ps).length with hn
      have hnpos : 0 < n := by simp [hn]
      have hMpos : 0 < M := Nat.pos_of_ne_zero hmax
      have h2 : (round + 1) * n ≤ M * n :=
        mul_le_mul_right' (Nat.succ_le_of_lt hround) n
      have hslot : round * n + patIndex + 1 ≤ M * n := by
        calc round * n + patIndex + 1 = round * n + (patIndex + 1) := by ring
          _ ≤ round * n + n := Nat.add_le_add_left (Nat.succ_le_of_lt hpat) _
          _ = (round + 1) * n := by ring
          _ ≤ M * n := h2
      have hT : (0:ℚ) < ((M * n : ℕ) : ℚ) := by
        exact_mod_cast Nat.mul_pos hMpos hnpos
      have hlow : (0:ℚ) ≤ ((round * n + patIndex : ℕ) : ℚ) * (1 / ((M * n : ℕ) : ℚ)) := by
        positivity
      have hup : (((round * n + patIndex : ℕ) : ℚ) + 1) * (1 / ((M * n : ℕ) : ℚ)) ≤ 1 := by
        rw [mul_one_div, div_le_one hT]
        exact_mod_cast hslot
      refine ⟨⟨?_, ?_⟩, ?_, ?_⟩ <;> dsimp <;> linarith

/-- Witness for C10: the confinement applied to a two-cycle query of a
two-pattern weave at count 1. -/
theorem C10_weave_single_cycle_witness :
    (1:ℚ) ≤ 1 ∧
      ∀ ev ∈ weave 1 [seq [(0:ℕ), 1], seq [2, 3]] ⟨0, 2⟩,
        ((⌊(0:ℚ)⌋ : ℚ) ≤ ev.whole.start ∧ ev.whole.stop ≤ (⌊(0:ℚ)⌋ : ℚ) + 1) ∧
          ((⌊(0:ℚ)⌋ : ℚ) ≤ ev.part.start ∧ ev.part.stop ≤ (⌊(0:ℚ)⌋ : ℚ) + 1) :=
  ⟨le_rfl, C10_weave_single_cycle 1 (seq [0, 1]) (seq [2, 3]) [] ⟨0, 2⟩ le_rfl⟩

/-- C5: for every pattern and positive compile options, every compiled
event's `startMs` is its whole-span start times `cycleDurationMs` and
its `durationMs` is the capped `min(wholeSpanMs, eventDurationMs)`, the
event list is a permutation of the converted query results sorted
non-decreasingly by `startMs` (stable insertion sort), and
`totalDurationMs = cycles * cycleDurationMs`; in particular compiling
`seq("a","b")` for one 1000 ms cycle yields events at 0 and 500 with
total duration 1000. -/
theorem C5_compile_timing :
    (∀ (p : Pattern CValue) (cycles cdm edm : ℚ), 0 < cycles → 0 < cdm →
        List.Pairwise compileLE (compile p cycles cdm edm).events ∧
        (compile p cycles cdm edm).events.Perm
          ((p ⟨0, cycles⟩).map (toTimelineEvent cdm edm)) ∧
        (∀ ev ∈ (compile p cycles cdm edm).events, ∃ e ∈ p ⟨0, cycles⟩,
            ev.startMs = e.whole.start * cdm ∧
            ev.durationMs = min ((e.whole.stop - e.whole.start) * cdm) edm) ∧
        (compile p cycles cdm edm).totalDurationMs = cycles * cdm) ∧
      ((compile (seq [CValue.str "a", CValue.str "b"]) 1 1000 3000).events.map
          (fun e => (e.startMs, e.text)) = [(0, "a"), (500, "b")] ∧
        (compile (seq [CValue.str "a", CValue.str "b"]) 1 1000 3000).totalDurationMs
          = 1000) := by
  constructor
  · intro p cycles cdm edm hcy hcd
    refine ⟨?_, ?_, ?_, ?_⟩
    · exact List.sorted_insertionSort compileLE _
    · exact List.perm_insertionSort compileLE _
    · intro ev hev
      have hmem : ev ∈ (p ⟨0, cycles⟩).map (toTimelineEvent cdm edm) :=
        (List.perm_insertionSort compileLE _).mem_iff.mp hev
      rw [List.mem_map] at hmem
      obtain ⟨e, he, rfl⟩ := hmem
      refine ⟨e, he, rfl, ?_⟩
      simp only [toTimelineEvent]
      ring_nf
    · rfl
  · constructor
    · simp only [compile]
      norm_num [seq_pair_unit, toTimelineEvent, extractEventData, collectThemes,
        List.insertionSort, List.orderedInsert, compileLE]
    · simp only [compile]
      norm_num

/-- Witness for C5: the general part applied at `pure "z"` compiled for
one 1000 ms cycle. -/
theorem C5_compile_timing_witness :
    (0:ℚ) < 1 ∧ (0:ℚ) < 1000 ∧
      (List.Pairwise compileLE
          (compile (pure (CValue.str "z")) 1 1000 3000).events ∧
        (compile (pure (CValue.str "z")) 1 1000 3000).events.Perm
          ((pure (CValue.str "z") ⟨0, 1⟩).map (toTimelineEvent 1000 3000)) ∧
        (∀ ev ∈ (compile (pure (CValue.str "z")) 1 1000 3000).events,
          ∃ e ∈ pure (CValue.str "z") ⟨0, 1⟩,
            ev.startMs = e.whole.start * 1000 ∧
            ev.durationMs = min ((e.whole.stop - e.whole.start) * 1000) 3000) ∧
        (compile (pure (CValue.str "z")) 1 1000 3000).totalDurationMs = 1 * 1000) :=
  ⟨by norm_num, by norm_num,
    C5_compile_timing.1 (pure (CValue.str "z")) 1 1000 3000 (by norm_num) (by norm_num)⟩

end PC
